import Mathlib

/-!
Shallow embedding of `src/cc.rs` (a URL-shortening HTTP service) for
verification of its specification.

Strings from the program (URLs, codes, JSON messages) are modelled as
`List Nat` of Unicode scalar values; request bodies as `List Nat` of bytes.
The two redb tables (`c2u` code→URL and `u2c` URL→code) are association
lists with first-match lookup and overwriting insert.  Fallible database
steps (begin, open table, get, insert, commit) are driven by an explicit
fault schedule; a write transaction changes the committed store only when
the commit step succeeds, mirroring redb's abort-on-drop semantics.
The random code generator is modelled as a stream of candidate strings,
and the unbounded collision-retry loop as a fuel-indexed search that
reports divergence as `none`.
-/

namespace CC

/-- A string of the program: a list of Unicode scalar values. -/
abbrev Str := List Nat

/-- Scalar values of a Lean string literal, used to write concrete program
strings. -/
def codes (s : String) : Str := s.data.map Char.toNat

/-- A redb string table: association list, first match wins on lookup. -/
abbrev Table := List (Str × Str)

/-- Table lookup (`redb get`): value of the first entry with the given key. -/
def tget (t : Table) (k : Str) : Option Str :=
  match t with
  | [] => none
  | (k2, v) :: rest => if k2 = k then some v else tget rest k

/-- Table insert (`redb insert`): overwrites any existing entry for the key. -/
def tinsert (t : Table) (k v : Str) : Table :=
  (k, v) :: t.filter (fun p => p.1 ≠ k)

/-- The persistent state: the two tables `c2u` ("c2u" code→URL) and `u2c`
("u2c" URL→code) of the database file. -/
structure Store where
  c2u : Table
  u2c : Table
deriving DecidableEq, Repr

/-- The empty store, as created by `serve` on first startup
(src/cc.rs lines 107-112). -/
def emptyStore : Store := ⟨[], []⟩

/-- Schema initialization (src/cc.rs lines 107-112): if the database has no
tables yet (`none`), create both empty; otherwise leave the store as is. -/
def ensureSchema (st : Option Store) : Store := st.getD emptyStore

/-- The `ls` subcommand's read path (src/cc.rs lines 75-94): enumerate the
code→URL table; read-only. -/
def listAll (st : Store) : Table := st.c2u

/-- A key has no duplicate entries in the table. -/
def nodupKeys (t : Table) : Prop := (t.map Prod.fst).Nodup

/-- The bidirectionality invariant: the two indexes are exact inverses under
lookup. -/
def inverses (st : Store) : Prop :=
  ∀ c u, tget st.c2u c = some u ↔ tget st.u2c u = some c

/-! ### UTF-8 decoding (`std::str::from_utf8`, src/cc.rs line 171) -/

/-- A UTF-8 continuation byte. -/
def isCont (b : Nat) : Bool := 0x80 ≤ b && b < 0xC0

/-- UTF-8 decoding of a byte list into scalar values, rejecting malformed
sequences, overlong encodings, surrogates and out-of-range values, as
`std::str::from_utf8` does. -/
def utf8Decode : List Nat → Option Str
  | [] => some []
  | b :: rest =>
    if b < 0x80 then
      (utf8Decode rest).map (b :: ·)
    else if b < 0xC2 then none
    else if b < 0xE0 then
      match rest with
      | b1 :: rest2 =>
        if isCont b1 then
          (utf8Decode rest2).map (((b - 0xC0) * 0x40 + (b1 - 0x80)) :: ·)
        else none
      | [] => none
    else if b < 0xF0 then
      match rest with
      | b1 :: b2 :: rest2 =>
        if isCont b1 && isCont b2 then
          let cp := (b - 0xE0) * 0x1000 + (b1 - 0x80) * 0x40 + (b2 - 0x80)
          if cp < 0x800 then none
          else if 0xD800 ≤ cp && cp < 0xE000 then none
          else (utf8Decode rest2).map (cp :: ·)
        else none
      | _ => none
    else if b < 0xF5 then
      match rest with
      | b1 :: b2 :: b3 :: rest2 =>
        if isCont b1 && isCont b2 && isCont b3 then
          let cp := (b - 0xF0) * 0x40000 + (b1 - 0x80) * 0x1000 +
            (b2 - 0x80) * 0x40 + (b3 - 0x80)
          if cp < 0x10000 || 0x110000 ≤ cp then none
          else (utf8Decode rest2).map (cp :: ·)
        else none
      | _ => none
    else none

/-! ### Whitespace trimming (`str::trim`, src/cc.rs line 172) -/

/-- Unicode `White_Space` property, as used by Rust `char::is_whitespace`. -/
def isWs (n : Nat) : Bool :=
  n = 0x20 || (0x9 ≤ n && n ≤ 0xD) || n = 0x85 || n = 0xA0 || n = 0x1680 ||
  (0x2000 ≤ n && n ≤ 0x200A) || n = 0x2028 || n = 0x2029 || n = 0x202F ||
  n = 0x205F || n = 0x3000

/-- Rust `str::trim`: drop whitespace from both ends. -/
def trimList (s : Str) : Str :=
  ((s.dropWhile (fun c => isWs c)).reverse.dropWhile (fun c => isWs c)).reverse

/-! ### URI parsing and normalization (`str::parse::<Uri>` and
`Uri::to_string`, src/cc.rs lines 179-187) -/

/-- A printable ASCII, non-whitespace character, the characters the URI
parser accepts. -/
def isUriChar (n : Nat) : Bool := 0x21 ≤ n && n ≤ 0x7E

/-- ASCII letter. -/
def isAlpha (n : Nat) : Bool := (0x41 ≤ n && n ≤ 0x5A) || (0x61 ≤ n && n ≤ 0x7A)

/-- ASCII digit. -/
def isDigit (n : Nat) : Bool := 0x30 ≤ n && n ≤ 0x39

/-- A character allowed in a URI scheme: letter, digit, `+`, `-` or `.`. -/
def isSchemeChar (n : Nat) : Bool :=
  isAlpha n || isDigit n || n = 0x2B || n = 0x2D || n = 0x2E

/-- Lower-case an ASCII scalar value. -/
def lowerCP (n : Nat) : Nat := if 0x41 ≤ n && n ≤ 0x5A then n + 0x20 else n

/-- A parsed URI: an optional scheme and the remainder after `scheme://`
(authority, path and query), or the whole string for a scheme-less
authority-form URI. -/
structure Uri where
  scheme : Option Str
  rest : Str
deriving DecidableEq, Repr

/-- Split a string at its first `:` (0x3A), returning the parts before and
after it; `none` if there is no colon. -/
def splitColon : Str → Option (Str × Str)
  | [] => none
  | c :: cs =>
    if c = 0x3A then some ([], cs)
    else
      match splitColon cs with
      | some (a, b) => some (c :: a, b)
      | none => none

/-- A syntactically valid scheme: nonempty, starts with a letter, scheme
characters throughout. -/
def schemeOk (s : Str) : Bool :=
  match s with
  | [] => false
  | c :: cs => isAlpha c && cs.all isSchemeChar

/-- Modelled from the spec: the external `http::Uri` parser used at
src/cc.rs line 179 is not part of this repository.  Per the spec it parses
the trimmed text as a URI, failing on malformed input, and lower-cases the
scheme per standard URI normalization.  The model rejects empty input and
non-printable or non-ASCII characters; a string with no colon parses as a
scheme-less authority-form URI; `scheme://rest` parses when the scheme is
well formed and the remainder nonempty. -/
def parseUri (s : Str) : Option Uri :=
  if s = [] || !(s.all isUriChar) then none
  else
    match splitColon s with
    | none => some ⟨none, s⟩
    | some (sch, rem) =>
      match rem with
      | 0x2F :: 0x2F :: rest =>
        if schemeOk sch && rest ≠ [] then some ⟨some (sch.map lowerCP), rest⟩
        else none
      | _ => none

/-- Modelled from the spec: re-serialization of a parsed URI to its
canonical string form (`Uri::to_string`, src/cc.rs line 187). -/
def uriToString (u : Uri) : Str :=
  match u.scheme with
  | some sch => sch ++ [0x3A, 0x2F, 0x2F] ++ u.rest
  | none => u.rest

/-- The scheme allow-list `ALLOWED_SCHEMES` (src/cc.rs line 61). -/
def allowedSchemes : List Str := [codes "http", codes "https"]

/-- Outcome of the validation/normalization phase of `put_new`
(src/cc.rs lines 171-197). -/
inductive Validation where
  | ok (canon : Str)
  | badUtf8
  | badParse
  | noScheme
  | badScheme (sch : Str)
deriving DecidableEq, Repr

/-- Validation of the already-decoded text: trim, parse as URI, re-serialize
to the canonical string, require an allowed scheme (src/cc.rs lines 179-197). -/
def normalizeStr (s : Str) : Validation :=
  match parseUri (trimList s) with
  | none => .badParse
  | some u =>
    match u.scheme with
    | some sch => if sch ∈ allowedSchemes then .ok (uriToString u) else .badScheme sch
    | none => .noScheme

/-- The full validation pipeline of `put_new` on the raw body bytes:
UTF-8 decode, then `normalizeStr` (src/cc.rs lines 171-197). -/
def normalize (body : List Nat) : Validation :=
  match utf8Decode body with
  | none => .badUtf8
  | some s => normalizeStr s

/-! ### Code generation (`gen_key`, src/cc.rs lines 255-259) -/

/-- The URL-safe base64 alphabet (`BASE64_URL_SAFE_NO_PAD`). -/
def b64Alphabet : Str :=
  codes "ABCDEFGHIJKLMNOPQRSTUVWXYZabcdefghijklmnopqrstuvwxyz0123456789-_"

/-- The alphabet character for a 6-bit value. -/
def b64Char (n : Nat) : Nat := b64Alphabet.getD n 0

/-- Unpadded base64 encoding of a byte list (groups of 3 bytes to 4
characters; a 2-byte tail to 3 characters, a 1-byte tail to 2; no `=`). -/
def b64Encode : List Nat → Str
  | b0 :: b1 :: b2 :: rest =>
    b64Char (b0 / 4) :: b64Char ((b0 % 4) * 16 + b1 / 16) ::
    b64Char ((b1 % 16) * 4 + b2 / 64) :: b64Char (b2 % 64) :: b64Encode rest
  | [b0, b1] =>
    [b64Char (b0 / 4), b64Char ((b0 % 4) * 16 + b1 / 16), b64Char ((b1 % 16) * 4)]
  | [b0] => [b64Char (b0 / 4), b64Char ((b0 % 4) * 16)]
  | [] => []

/-- The function `gen_key` (src/cc.rs lines 255-259) on an explicit draw of 4 random
bytes: their unpadded URL-safe base64 encoding. -/
def gen_key (b0 b1 b2 b3 : Nat) : Str := b64Encode [b0, b1, b2, b3]

/-! ### HTTP responses and the handlers -/

/-- An HTTP response as produced by the handlers: a redirect with a Location,
a bare status with empty body, or a JSON `{ok, msg}` body with a status. -/
inductive HttpResp where
  | redirect (status : Nat) (location : Str)
  | empty (status : Nat)
  | json (status : Nat) (ok : Bool) (msg : Str)
deriving DecidableEq, Repr

/-- The `nope!` macro's response (src/cc.rs lines 139-147): 500 with
`{"ok": false, "msg": "problem with database"}`. -/
def nope : HttpResp := .json 500 false (codes "problem with database")

/-- Fault schedule for the read path of `get_code`: whether `begin_read`,
`open_table` or the lookup fails. -/
structure ReadFaults where
  beginRead : Bool
  openC2U : Bool
  getKey : Bool
deriving DecidableEq, Repr

/-- The all-success read schedule. -/
def noReadFaults : ReadFaults := ⟨false, false, false⟩

/-- The `get_code` handler (src/cc.rs lines 149-168): read transaction,
lookup in code→URL; permanent redirect (308) on hit, 404 empty body on miss,
`nope` on any database failure. -/
def get_code (st : Store) (f : ReadFaults) (code : Str) : HttpResp :=
  if f.beginRead then nope
  else if f.openC2U then nope
  else if f.getKey then nope
  else
    match tget st.c2u code with
    | some url => .redirect 308 url
    | none => .empty 404

/-- Fault schedule for the write path of `put_new`: one flag per fallible
database step, in the order the code performs them; `getCode n` is the
collision-loop lookup of the n-th candidate. -/
structure WriteFaults where
  beginWrite : Bool
  openU2C : Bool
  openC2U : Bool
  getUrl : Bool
  getCode : Nat → Bool
  insC2U : Bool
  insU2C : Bool
  commit : Bool

/-- The all-success write schedule. -/
def noWriteFaults : WriteFaults :=
  ⟨false, false, false, false, fun _ => false, false, false, false⟩

/-- The collision-retry loop (src/cc.rs lines 222-233) searching candidates
`keys i`, `keys (i+1)`, ... : returns `some (some i)` for the first index
whose candidate is absent from code→URL, `some none` if a lookup fails
(`nope`), and `none` when `fuel` runs out (the unbounded loop has not yet
terminated). -/
def findCode (c2u : Table) (keys : Nat → Str) (ffail : Nat → Bool) :
    Nat → Nat → Option (Option Nat)
  | 0, _ => none
  | fuel + 1, i =>
    if ffail i then some none
    else
      match tget c2u (keys i) with
      | none => some (some i)
      | some _ => findCode c2u keys ffail fuel (i + 1)

/-- The write transaction of `put_new` after validation
(src/cc.rs lines 199-252): begin write, open u2c then c2u, look up the
canonical URL (returning the existing code with a plain 200 JSON response
and dropping the transaction on a hit), otherwise run the collision loop,
insert into both tables, commit, and answer 201.  The committed store
changes only on a successful commit; every failure answers `nope` and
leaves the store as it was. -/
def putOrReuse (st : Store) (canon : Str) (keys : Nat → Str) (f : WriteFaults)
    (fuel : Nat) : Option (HttpResp × Store) :=
  if f.beginWrite then some (nope, st)
  else if f.openU2C then some (nope, st)
  else if f.openC2U then some (nope, st)
  else if f.getUrl then some (nope, st)
  else
    match tget st.u2c canon with
    | some code => some (.json 200 true code, st)
    | none =>
      match findCode st.c2u keys f.getCode fuel 0 with
      | none => none
      | some none => some (nope, st)
      | some (some i) =>
        if f.insC2U then some (nope, st)
        else if f.insU2C then some (nope, st)
        else if f.commit then some (nope, st)
        else
          some (.json 201 true (keys i),
            ⟨tinsert st.c2u (keys i) canon, tinsert st.u2c canon (keys i)⟩)

/-- The `put_new` handler (src/cc.rs lines 170-253): validate and normalize
the body (each failure answers 400 with its JSON message and never opens a
transaction), then run the write transaction `putOrReuse`. -/
def put_new (st : Store) (body : List Nat) (keys : Nat → Str) (f : WriteFaults)
    (fuel : Nat) : Option (HttpResp × Store) :=
  match normalize body with
  | .badUtf8 => some (.json 400 false (codes "invalid utf-8 in url"), st)
  | .badParse => some (.json 400 false (codes "invalid url"), st)
  | .noScheme => some (.json 400 false (codes "url missing scheme"), st)
  | .badScheme _ => some (.json 400 false (codes "unsupported url scheme"), st)
  | .ok canon => putOrReuse st canon keys f fuel

/-- The code carried by a successful JSON response. -/
def respCode (r : HttpResp) : Option Str :=
  match r with
  | .json _ true m => some m
  | _ => none

/-! ### Table lemmas -/

theorem tget_tinsert_self (t : Table) (k v : Str) :
    tget (tinsert t k v) k = some v := by
  simp [tget, tinsert]

theorem tget_filter_ne (t : Table) (k k2 : Str) (h : k2 ≠ k) :
    tget (t.filter (fun p => p.1 ≠ k)) k2 = tget t k2 := by
  induction t with
  | nil => rfl
  | cons p rest ih =>
    obtain ⟨k3, v3⟩ := p
    rw [List.filter_cons]
    by_cases hk : k3 = k
    · have hne : ¬ k3 = k2 := fun e => h (e.symm.trans hk)
      rw [if_neg (by simp [hk])]
      simp only [tget, if_neg hne]
      exact ih
    · rw [if_pos (by simp [hk])]
      simp only [tget]
      by_cases hk2 : k3 = k2
      · simp [hk2]
      · simp only [if_neg hk2]
        simpa using ih

theorem tget_tinsert_ne (t : Table) (k v k2 : Str) (h : k2 ≠ k) :
    tget (tinsert t k v) k2 = tget t k2 := by
  simp only [tinsert, tget]
  rw [if_neg (fun hkk : k = k2 => h (hkk ▸ rfl)), tget_filter_ne t k k2 h]

theorem tget_mem {t : Table} {k v : Str} (h : tget t k = some v) : (k, v) ∈ t := by
  induction t with
  | nil => simp [tget] at h
  | cons p rest ih =>
    obtain ⟨k2, v2⟩ := p
    simp only [tget] at h
    by_cases hk : k2 = k
    · subst hk
      rw [if_pos rfl] at h
      injection h with h
      simp [h]
    · rw [if_neg hk] at h
      exact List.mem_cons_of_mem _ (ih h)

theorem mem_tget {t : Table} {k v : Str} (hnd : nodupKeys t) (h : (k, v) ∈ t) :
    tget t k = some v := by
  induction t with
  | nil => simp at h
  | cons p rest ih =>
    obtain ⟨k2, v2⟩ := p
    simp only [nodupKeys, List.map_cons, List.nodup_cons] at hnd
    rcases List.mem_cons.mp h with h1 | h1
    · injection h1 with e1 e2
      simp [tget, e1.symm, e2]
    · have hk : k2 ≠ k := by
        intro e
        exact hnd.1 (e ▸ (List.mem_map.mpr ⟨(k, v), h1, rfl⟩))
      simp only [tget, if_neg hk]
      exact ih hnd.2 h1

theorem nodupKeys_filter (t : Table) (k : Str) (hnd : nodupKeys t) :
    nodupKeys (t.filter (fun p => p.1 ≠ k)) :=
  List.Nodup.sublist (List.Sublist.map Prod.fst (List.filter_sublist t)) hnd

theorem nodupKeys_tinsert (t : Table) (k v : Str) (hnd : nodupKeys t) :
    nodupKeys (tinsert t k v) := by
  simp only [tinsert, nodupKeys, List.map_cons, List.nodup_cons]
  refine ⟨?_, nodupKeys_filter t k hnd⟩
  intro hmem
  obtain ⟨p, hp, he⟩ := List.mem_map.mp hmem
  have := List.of_mem_filter hp
  simp only [decide_eq_true_eq] at this
  exact this he

/-- Inserting a fresh pair (key absent on both sides) preserves the
bidirectionality invariant. -/
theorem inverses_tinsert {st : Store} {c u : Str} (hinv : inverses st)
    (hc : tget st.c2u c = none) (hu : tget st.u2c u = none) :
    inverses ⟨tinsert st.c2u c u, tinsert st.u2c u c⟩ := by
  intro c2 u2
  by_cases hcc : c2 = c
  · subst hcc
    rw [tget_tinsert_self]
    by_cases huu : u2 = u
    · subst huu
      rw [tget_tinsert_self]
      simp
    · rw [tget_tinsert_ne _ _ _ _ huu]
      constructor
      · intro he
        injection he with he
        exact absurd he.symm huu
      · intro he
        have := (hinv c2 u2).mpr he
        rw [hc] at this
        exact absurd this (by simp)
  · rw [tget_tinsert_ne _ _ _ _ hcc]
    by_cases huu : u2 = u
    · subst huu
      rw [tget_tinsert_self]
      constructor
      · intro he
        have := (hinv c2 u2).mp he
        rw [hu] at this
        exact absurd this (by simp)
      · intro he
        injection he with he
        exact absurd he.symm hcc
    · rw [tget_tinsert_ne _ _ _ _ huu]
      exact hinv c2 u2

/-! ### Collision-loop lemmas -/

/-- When the loop terminates at index `i`, the candidate `keys i` is absent
from code→URL and every earlier candidate from the start index on was
occupied. -/
theorem findCode_ok {c2u : Table} {keys : Nat → Str} {ffail : Nat → Bool}
    {fuel s i : Nat} (h : findCode c2u keys ffail fuel s = some (some i)) :
    tget c2u (keys i) = none ∧ s ≤ i ∧
      ∀ j, s ≤ j → j < i → ∃ v, tget c2u (keys j) = some v := by
  induction fuel generalizing s with
  | zero => simp [findCode] at h
  | succ fuel ih =>
    simp only [findCode] at h
    split at h
    · simp at h
    · rename_i hfail
      rcases he : tget c2u (keys s) with _ | v
      · rw [he] at h
        injection h with h
        injection h with h
        subst h
        exact ⟨he, le_refl s, fun j h1 h2 => absurd (lt_of_le_of_lt h1 h2) (lt_irrefl s)⟩
      · rw [he] at h
        obtain ⟨h1, h2, h3⟩ := ih h
        refine ⟨h1, le_trans (Nat.le_succ s) h2, fun j hj1 hj2 => ?_⟩
        rcases Nat.eq_or_lt_of_le hj1 with hj | hj
        · exact ⟨v, hj ▸ he⟩
        · exact h3 j hj hj2

/-- With a fault-free schedule the loop never reports a database error. -/
theorem findCode_const_false (c2u : Table) (keys : Nat → Str) (fuel s : Nat) :
    findCode c2u keys (fun _ => false) fuel s ≠ some none := by
  induction fuel generalizing s with
  | zero => simp [findCode]
  | succ fuel ih =>
    simp only [findCode, Bool.false_eq_true, if_false]
    rcases tget c2u (keys s) with _ | v
    · simp
    · exact ih (s + 1)

/-! ### Write-transaction case analysis -/

/-- Complete case analysis of the write transaction: either the committed
store is unchanged (a database failure answered by `nope`, or the
idempotent-reuse path answering 200 with the existing code), or a fresh
pair was committed: the canonical URL was absent from URL→code, the chosen
candidate absent from code→URL, the response is 201 with that candidate and
both tables gain the pair. -/
theorem putOrReuse_cases {st : Store} {canon : Str} {keys : Nat → Str}
    {f : WriteFaults} {fuel : Nat} {r : HttpResp} {st1 : Store}
    (h : putOrReuse st canon keys f fuel = some (r, st1)) :
    (st1 = st ∧ (r = nope ∨ ∃ c, tget st.u2c canon = some c ∧ r = .json 200 true c)) ∨
    (∃ i, tget st.u2c canon = none ∧ tget st.c2u (keys i) = none ∧
      findCode st.c2u keys f.getCode fuel 0 = some (some i) ∧
      f.commit = false ∧ r = .json 201 true (keys i) ∧
      st1 = ⟨tinsert st.c2u (keys i) canon, tinsert st.u2c canon (keys i)⟩) := by
  unfold putOrReuse at h
  split at h
  · rcases h with ⟨rfl, rfl⟩
    exact Or.inl ⟨rfl, Or.inl rfl⟩
  split at h
  · rcases h with ⟨rfl, rfl⟩
    exact Or.inl ⟨rfl, Or.inl rfl⟩
  split at h
  · rcases h with ⟨rfl, rfl⟩
    exact Or.inl ⟨rfl, Or.inl rfl⟩
  split at h
  · rcases h with ⟨rfl, rfl⟩
    exact Or.inl ⟨rfl, Or.inl rfl⟩
  split at h
  · rename_i code hcode
    rcases h with ⟨rfl, rfl⟩
    exact Or.inl ⟨rfl, Or.inr ⟨code, hcode, rfl⟩⟩
  rename_i hurl
  split at h
  · simp at h
  · rcases h with ⟨rfl, rfl⟩
    exact Or.inl ⟨rfl, Or.inl rfl⟩
  · rename_i i hfind
    split at h
    · rcases h with ⟨rfl, rfl⟩
      exact Or.inl ⟨rfl, Or.inl rfl⟩
    split at h
    · rcases h with ⟨rfl, rfl⟩
      exact Or.inl ⟨rfl, Or.inl rfl⟩
    split at h
    · rcases h with ⟨rfl, rfl⟩
      exact Or.inl ⟨rfl, Or.inl rfl⟩
    · rename_i hcommit
      rcases h with ⟨rfl, rfl⟩
      exact Or.inr ⟨i, hurl, (findCode_ok hfind).1, hfind,
        Bool.not_eq_true _ ▸ (by simpa using hcommit), rfl, rfl⟩

/-- Under the all-success schedule the write transaction either reuses the
existing code (200, store unchanged) or commits a fresh pair (201). -/
theorem putOrReuse_noFaults_spec {st : Store} {canon : Str} {keys : Nat → Str}
    {fuel : Nat} {r : HttpResp} {st1 : Store}
    (h : putOrReuse st canon keys noWriteFaults fuel = some (r, st1)) :
    (∃ c, tget st.u2c canon = some c ∧ r = .json 200 true c ∧ st1 = st) ∨
    (∃ i, tget st.u2c canon = none ∧ tget st.c2u (keys i) = none ∧
      r = .json 201 true (keys i) ∧
      st1 = ⟨tinsert st.c2u (keys i) canon, tinsert st.u2c canon (keys i)⟩) := by
  unfold putOrReuse at h
  simp only [noWriteFaults, Bool.false_eq_true, if_false] at h
  split at h
  · rename_i c hc
    rcases h with ⟨rfl, rfl⟩
    exact Or.inl ⟨c, hc, rfl, rfl⟩
  rename_i hurl
  split at h
  · simp at h
  · rename_i hfind
    exact absurd hfind (findCode_const_false _ _ _ _)
  · rename_i i hfind
    rcases h with ⟨rfl, rfl⟩
    exact Or.inr ⟨i, hurl, (findCode_ok hfind).1, rfl, rfl⟩

/-! ### Counting lemmas -/

theorem countP_key_one {t : Table} {k v : Str} (hnd : nodupKeys t)
    (h : tget t k = some v) :
    t.countP (fun p => p.1 = k) = 1 := by
  induction t with
  | nil => simp [tget] at h
  | cons q rest ih =>
    obtain ⟨k2, v2⟩ := q
    simp only [nodupKeys, List.map_cons, List.nodup_cons] at hnd
    simp only [tget] at h
    rw [List.countP_cons]
    by_cases hk : k2 = k
    · have h0 : rest.countP (fun p => p.1 = k) = 0 := by
        rw [List.countP_eq_zero]
        intro p hp
        simp only [decide_eq_true_eq]
        intro e
        exact hnd.1 (List.mem_map.mpr ⟨p, hp, e.trans hk.symm⟩)
      simp [h0, hk]
    · rw [if_neg hk] at h
      simp [ih hnd.2 h, hk]

theorem countP_val_one {t : Table} {c u : Str} (hnd : nodupKeys t)
    (h : tget t c = some u) (huniq : ∀ p ∈ t, p.2 = u → p.1 = c) :
    t.countP (fun p => p.2 = u) = 1 := by
  induction t with
  | nil => simp [tget] at h
  | cons q rest ih =>
    obtain ⟨k2, v2⟩ := q
    simp only [nodupKeys, List.map_cons, List.nodup_cons] at hnd
    simp only [tget] at h
    rw [List.countP_cons]
    by_cases hk : k2 = c
    · rw [if_pos hk] at h
      injection h with h
      have h0 : rest.countP (fun p => p.2 = u) = 0 := by
        rw [List.countP_eq_zero]
        intro p hp
        simp only [decide_eq_true_eq]
        intro e
        have hpc := huniq p (List.mem_cons_of_mem _ hp) e
        exact hnd.1 (List.mem_map.mpr ⟨p, hp, hpc.trans hk.symm⟩)
      simp [h0, h]
    · rw [if_neg hk] at h
      have hv2 : ¬ v2 = u := fun e => hk (huniq (k2, v2) (List.mem_cons_self _ _) e)
      simp [ih hnd.2 h (fun p hp e => huniq p (List.mem_cons_of_mem _ hp) e), hv2]

/-! ### Claim theorems -/

/-- Claim C3: at every reachable store state (sequential model, which is the
race-free case the claim carves out), the code→URL and URL→code indexes are
exact inverses: `ensureSchema` establishes the invariant on a fresh database
and leaves an existing store alone, and `put_new` (hence `putOrReuse`)
preserves it on every outcome.  `get_code` (resolve) and `listAll` are
read-only — they take the store and return no store — so they preserve it
definitionally. -/
theorem indexes_mutually_consistent :
    inverses (ensureSchema none) ∧
    (∀ st : Store, inverses st → inverses (ensureSchema (some st))) ∧
    (∀ (st : Store) (body : List Nat) (keys : Nat → Str) (f : WriteFaults)
      (fuel : Nat) (r : HttpResp) (st1 : Store),
      put_new st body keys f fuel = some (r, st1) →
      inverses st → inverses st1) := by
  refine ⟨?_, fun st h => h, ?_⟩
  · intro c u
    simp [ensureSchema, emptyStore, tget]
  · intro st body keys f fuel r st1 h hinv
    unfold put_new at h
    split at h
    · rcases h with ⟨rfl, rfl⟩; exact hinv
    · rcases h with ⟨rfl, rfl⟩; exact hinv
    · rcases h with ⟨rfl, rfl⟩; exact hinv
    · rcases h with ⟨rfl, rfl⟩; exact hinv
    · rcases putOrReuse_cases h with ⟨rfl, _⟩ | ⟨i, _, hc2u, _, _, _, rfl⟩
      · exact hinv
      · exact inverses_tinsert hinv hc2u (by assumption)

/-- Claim C3 witness: the invariant, transported through a concrete
successful `put_new` run from the fresh store. -/
theorem indexes_mutually_consistent_witness :
    inverses ⟨[(codes "AAAAAA", codes "http://a")],
      [(codes "http://a", codes "AAAAAA")]⟩ :=
  indexes_mutually_consistent.2.2 emptyStore (codes "http://a")
    (fun _ => codes "AAAAAA") noWriteFaults 1
    (.json 201 true (codes "AAAAAA"))
    ⟨[(codes "AAAAAA", codes "http://a")], [(codes "http://a", codes "AAAAAA")]⟩
    (by decide) (fun c u => by simp [emptyStore, tget])

/-- Claim C4: every database failure inside the write transaction — begin,
table open, lookup, either insert, or the commit itself — answers the
`nope` 500 response with body `{"ok": false, "msg": "problem with
database"}` and leaves the committed store exactly as it was; the committed
store changes only when the response is the 201 success, which requires the
commit step to have succeeded.  Failure boundary = transaction boundary. -/
theorem put_failure_atomic (st : Store) (body : List Nat) (keys : Nat → Str)
    (f : WriteFaults) (fuel : Nat) (r : HttpResp) (st1 : Store)
    (h : put_new st body keys f fuel = some (r, st1)) :
    (r = nope → st1 = st ∧ r = .json 500 false (codes "problem with database")) ∧
    (st1 ≠ st → (∃ c, r = .json 201 true c) ∧ f.commit = false) := by
  unfold put_new at h
  split at h
  · rcases h with ⟨rfl, rfl⟩
    exact ⟨fun hr => by simp [nope, codes] at hr, fun hne => absurd rfl hne⟩
  · rcases h with ⟨rfl, rfl⟩
    exact ⟨fun hr => by simp [nope, codes] at hr, fun hne => absurd rfl hne⟩
  · rcases h with ⟨rfl, rfl⟩
    exact ⟨fun hr => by simp [nope, codes] at hr, fun hne => absurd rfl hne⟩
  · rcases h with ⟨rfl, rfl⟩
    exact ⟨fun hr => by simp [nope, codes] at hr, fun hne => absurd rfl hne⟩
  · rcases putOrReuse_cases h with ⟨rfl, hr⟩ | ⟨i, _, _, _, hcommit, rfl, rfl⟩
    · refine ⟨fun hrn => ⟨rfl, ?_⟩, fun hne => absurd rfl hne⟩
      rcases hr with rfl | ⟨c, _, rfl⟩
      · rfl
      · simp [nope] at hrn
    · refine ⟨fun hr => by simp [nope] at hr, fun _ => ⟨⟨keys i, rfl⟩, hcommit⟩⟩

/-- A schedule on which only the commit step fails. -/
def commitFaulty : WriteFaults :=
  ⟨false, false, false, false, fun _ => false, false, false, true⟩

/-- Claim C4 witness: a concrete run in which the commit fails, instantiating
the theorem at its outcome (500, store untouched). -/
theorem put_failure_atomic_witness :
    (nope = nope →
      emptyStore = emptyStore ∧
        nope = .json 500 false (codes "problem with database")) ∧
    (emptyStore ≠ emptyStore →
      (∃ c, nope = .json 201 true c) ∧ commitFaulty.commit = false) :=
  put_failure_atomic emptyStore (codes "http://a") (fun _ => codes "AAAAAA")
    commitFaulty 1 nope emptyStore (by decide)

/-- Claim C9: resolve round-trip.  For a pair (code, url) present in the
code→URL index (of a well-formed table), `get_code` answers a permanent
redirect (308, the class of permanent redirects) to exactly that URL; for a
code with no entry it answers 404 with an empty body. -/
theorem resolve_round_trip (st : Store) (code url : Str)
    (hnd : nodupKeys st.c2u) :
    ((code, url) ∈ st.c2u → get_code st noReadFaults code = .redirect 308 url) ∧
    (tget st.c2u code = none → get_code st noReadFaults code = .empty 404) := by
  constructor
  · intro hmem
    simp [get_code, noReadFaults, mem_tget hnd hmem]
  · intro hnone
    simp [get_code, noReadFaults, hnone]

/-- Claim C9 witness: a stored pair redirects to its URL, an absent code
gives the empty 404. -/
theorem resolve_round_trip_witness :
    get_code ⟨[(codes "abc123", codes "http://a")], [(codes "http://a", codes "abc123")]⟩
        noReadFaults (codes "abc123") = .redirect 308 (codes "http://a") ∧
    get_code ⟨[(codes "abc123", codes "http://a")], [(codes "http://a", codes "abc123")]⟩
        noReadFaults (codes "zzzzzz") = .empty 404 :=
  ⟨(resolve_round_trip _ (codes "abc123") (codes "http://a")
      (by unfold nodupKeys; decide)).1 (by decide),
   (resolve_round_trip _ (codes "zzzzzz") (codes "http://a")
      (by unfold nodupKeys; decide)).2 (by decide)⟩

/-- Claim C10: when the canonical URL is already present in URL→code, the
handler answers 200 with the existing code and the committed store is
exactly the input store — the opened write transaction is dropped without
commit (the conclusion holds for every value of the insert and commit fault
flags, which are never consulted on this path). -/
theorem reuse_drops_transaction (st : Store) (body : List Nat)
    (keys : Nat → Str) (f : WriteFaults) (fuel : Nat) (canon c : Str)
    (hnorm : normalize body = .ok canon)
    (hb : f.beginWrite = false) (ho1 : f.openU2C = false)
    (ho2 : f.openC2U = false) (hg : f.getUrl = false)
    (hc : tget st.u2c canon = some c) :
    put_new st body keys f fuel = some (.json 200 true c, st) := by
  unfold put_new
  rw [hnorm]
  unfold putOrReuse
  rw [hb, ho1, ho2, hg]
  simp [hc]

/-- Claim C10 witness: a duplicate submission against a one-entry store,
under a schedule whose commit step would fail if it were ever reached,
answers 200 with the stored code and leaves the store unchanged. -/
theorem reuse_drops_transaction_witness :
    put_new ⟨[(codes "abc123", codes "http://a")], [(codes "http://a", codes "abc123")]⟩
        (codes "http://a") (fun _ => codes "AAAAAA") commitFaulty 1 =
      some (.json 200 true (codes "abc123"),
        ⟨[(codes "abc123", codes "http://a")], [(codes "http://a", codes "abc123")]⟩) :=
  reuse_drops_transaction _ (codes "http://a") (fun _ => codes "AAAAAA")
    commitFaulty 1 (codes "http://a") (codes "abc123")
    (by decide) rfl rfl rfl rfl (by decide)

/-- Claim C5: every body that is invalid UTF-8, or parses to a URI with no
scheme, or to a URI with a scheme outside the allow-list, is answered 400
with a JSON error and the store is returned untouched — this holds for
every fault schedule, so no database step (not even `begin_write`) is ever
consulted: validation completes before any transaction is opened. -/
theorem validation_rejected_before_store (st : Store) (body : List Nat)
    (keys : Nat → Str) (f : WriteFaults) (fuel : Nat)
    (h : utf8Decode body = none ∨
      (∃ s u, utf8Decode body = some s ∧ parseUri (trimList s) = some u ∧
        u.scheme = none) ∨
      (∃ s u sch, utf8Decode body = some s ∧ parseUri (trimList s) = some u ∧
        u.scheme = some sch ∧ sch ∉ allowedSchemes)) :
    ∃ m, put_new st body keys f fuel = some (.json 400 false m, st) := by
  rcases h with h | ⟨s, u, hs, hp, hsch⟩ | ⟨s, u, sch, hs, hp, hsch, hmem⟩
  · refine ⟨codes "invalid utf-8 in url", ?_⟩
    unfold put_new normalize
    rw [h]
  · refine ⟨codes "url missing scheme", ?_⟩
    have hn : normalize body = Validation.noScheme := by
      simp [normalize, normalizeStr, hs, hp, hsch]
    unfold put_new
    rw [hn]
  · refine ⟨codes "unsupported url scheme", ?_⟩
    have hn : normalize body = Validation.badScheme sch := by
      simp [normalize, normalizeStr, hs, hp, hsch, hmem]
    unfold put_new
    rw [hn]

/-- Claim C5 witness: `ftp://x` (disallowed scheme) is answered 400 with the
store untouched, under a schedule where every database step would fail. -/
theorem validation_rejected_before_store_witness :
    (∃ s u sch, utf8Decode (codes "ftp://x") = some s ∧
      parseUri (trimList s) = some u ∧ u.scheme = some sch ∧
      sch ∉ allowedSchemes) ∧
    ∃ m, put_new ⟨[(codes "abc123", codes "http://a")], [(codes "http://a", codes "abc123")]⟩
      (codes "ftp://x") (fun _ => codes "AAAAAA")
      ⟨true, true, true, true, fun _ => true, true, true, true⟩ 0 =
      some (.json 400 false m,
        ⟨[(codes "abc123", codes "http://a")], [(codes "http://a", codes "abc123")]⟩) :=
  ⟨⟨codes "ftp://x", ⟨some (codes "ftp"), codes "x"⟩, codes "ftp",
      by decide, by decide, rfl, by decide⟩,
   validation_rejected_before_store _ (codes "ftp://x") (fun _ => codes "AAAAAA")
     ⟨true, true, true, true, fun _ => true, true, true, true⟩ 0
     (Or.inr (Or.inr ⟨codes "ftp://x", ⟨some (codes "ftp"), codes "x"⟩, codes "ftp",
       by decide, by decide, rfl, by decide⟩))⟩

/-- Claim C6: the collision-retry loop returns only an index whose candidate
is absent from code→URL, having inspected and discarded every earlier
occupied candidate; consequently whenever `put_new` answers the 201
creation response with code c, that c was unoccupied in the code→URL index
of the pre-transaction store, i.e. at the moment of its insertion inside
the write transaction. -/
theorem collision_loop_fresh :
    (∀ (c2u : Table) (keys : Nat → Str) (ffail : Nat → Bool) (fuel i : Nat),
      findCode c2u keys ffail fuel 0 = some (some i) →
      tget c2u (keys i) = none ∧ ∀ j < i, ∃ v, tget c2u (keys j) = some v) ∧
    (∀ (st : Store) (body : List Nat) (keys : Nat → Str) (f : WriteFaults)
      (fuel : Nat) (r : HttpResp) (st1 : Store) (c : Str),
      put_new st body keys f fuel = some (r, st1) →
      r = .json 201 true c → tget st.c2u c = none) := by
  constructor
  · intro c2u keys ffail fuel i h
    obtain ⟨h1, _, h3⟩ := findCode_ok h
    exact ⟨h1, fun j hj => h3 j (Nat.zero_le j) hj⟩
  · intro st body keys f fuel r st1 c h hr
    subst hr
    unfold put_new at h
    split at h
    · simp at h
    · simp at h
    · simp at h
    · simp at h
    · rcases putOrReuse_cases h with ⟨_, hr2⟩ | ⟨i, _, hc2u, _, _, hr2, _⟩
      · rcases hr2 with hr2 | ⟨c2, _, hr2⟩
        · simp [nope] at hr2
        · simp at hr2
      · injection hr2 with _ _ he
        exact he ▸ hc2u

/-- Claim C6 witness: with the first candidate occupied, the loop skips it
and the committed code (the second candidate) was unoccupied. -/
theorem collision_loop_fresh_witness :
    tget [(codes "AAAAAA", codes "http://b")] (codes "BBBBBB") = none :=
  collision_loop_fresh.2
    ⟨[(codes "AAAAAA", codes "http://b")], [(codes "http://b", codes "AAAAAA")]⟩
    (codes "http://a")
    (fun n => if n = 0 then codes "AAAAAA" else codes "BBBBBB")
    noWriteFaults 2
    (.json 201 true (codes "BBBBBB"))
    ⟨[(codes "BBBBBB", codes "http://a"), (codes "AAAAAA", codes "http://b")],
      [(codes "http://a", codes "BBBBBB"), (codes "http://b", codes "AAAAAA")]⟩
    (codes "BBBBBB") (by decide) rfl

/-- Each 6-bit value indexes a character of the URL-safe base64 alphabet,
and none of those characters is the padding character. -/
theorem b64Char_spec : ∀ n < 64, b64Char n ∈ b64Alphabet ∧ b64Char n ≠ 0x3D := by
  decide

/-- Claim C7: for any draw of 4 bytes, `gen_key` produces exactly 6
characters, each drawn from the URL-safe base64 alphabet, with no padding
character. -/
theorem gen_key_shape (b0 b1 b2 b3 : Nat)
    (h0 : b0 < 256) (h1 : b1 < 256) (h2 : b2 < 256) (h3 : b3 < 256) :
    (gen_key b0 b1 b2 b3).length = 6 ∧
    ∀ ch ∈ gen_key b0 b1 b2 b3, ch ∈ b64Alphabet ∧ ch ≠ 0x3D := by
  constructor
  · simp [gen_key, b64Encode]
  · intro ch hch
    simp only [gen_key, b64Encode, List.mem_cons, List.not_mem_nil, or_false] at hch
    rcases hch with rfl | rfl | rfl | rfl | rfl | rfl
    · exact b64Char_spec _ (by omega)
    · exact b64Char_spec _ (by omega)
    · exact b64Char_spec _ (by omega)
    · exact b64Char_spec _ (by omega)
    · exact b64Char_spec _ (by omega)
    · exact b64Char_spec _ (by omega)

/-- Claim C7 witness: the key for the draw (255, 255, 255, 255). -/
theorem gen_key_shape_witness :
    (gen_key 255 255 255 255).length = 6 ∧
    ∀ ch ∈ gen_key 255 255 255 255, ch ∈ b64Alphabet ∧ ch ≠ 0x3D :=
  gen_key_shape 255 255 255 255 (by decide) (by decide) (by decide) (by decide)

/-! ### Character lemmas for normalization -/

theorem lowerCP_idem (n : Nat) : lowerCP (lowerCP n) = lowerCP n := by
  simp only [lowerCP, Bool.and_eq_true, decide_eq_true_eq]
  split
  · rw [if_neg (by omega)]
  · rfl

theorem isAlpha_lowerCP {n : Nat} (h : isAlpha n = true) :
    isAlpha (lowerCP n) = true := by
  simp only [isAlpha, lowerCP, Bool.and_eq_true, Bool.or_eq_true,
    decide_eq_true_eq] at h ⊢
  split <;> omega

theorem isSchemeChar_lowerCP {n : Nat} (h : isSchemeChar n = true) :
    isSchemeChar (lowerCP n) = true := by
  simp only [isSchemeChar, isAlpha, isDigit, lowerCP, Bool.and_eq_true,
    Bool.or_eq_true, decide_eq_true_eq] at h ⊢
  split <;> omega

theorem isUriChar_lowerCP {n : Nat} (h : isUriChar n = true) :
    isUriChar (lowerCP n) = true := by
  simp only [isUriChar, lowerCP, Bool.and_eq_true, decide_eq_true_eq] at h ⊢
  split <;> omega

theorem lowerCP_ne_colon {n : Nat} (h : isSchemeChar n = true) :
    lowerCP n ≠ 0x3A := by
  simp only [isSchemeChar, isAlpha, isDigit, lowerCP, Bool.and_eq_true,
    Bool.or_eq_true, decide_eq_true_eq] at h ⊢
  split <;> omega

theorem isUriChar_not_ws {n : Nat} (h : isUriChar n = true) : isWs n = false := by
  simp only [isUriChar, Bool.and_eq_true, decide_eq_true_eq] at h
  rw [Bool.eq_false_iff]
  intro hw
  simp only [isWs, Bool.or_eq_true, Bool.and_eq_true, decide_eq_true_eq] at hw
  omega

theorem schemeOk_all {s : Str} (h : schemeOk s = true) :
    s.all isSchemeChar = true := by
  cases s with
  | nil => simp [schemeOk] at h
  | cons c t =>
    simp only [schemeOk, Bool.and_eq_true] at h
    simp only [List.all_cons, Bool.and_eq_true]
    refine ⟨?_, h.2⟩
    simp [isSchemeChar, h.1]

theorem schemeOk_map_lower {s : Str} (h : schemeOk s = true) :
    schemeOk (s.map lowerCP) = true := by
  cases s with
  | nil => simp [schemeOk] at h
  | cons c t =>
    simp only [schemeOk, Bool.and_eq_true, List.all_eq_true] at h
    simp only [List.map_cons, schemeOk, Bool.and_eq_true, List.all_eq_true]
    refine ⟨isAlpha_lowerCP h.1, fun x hx => ?_⟩
    obtain ⟨y, hy, rfl⟩ := List.mem_map.mp hx
    exact isSchemeChar_lowerCP (h.2 y hy)

theorem map_lower_idem (s : Str) : (s.map lowerCP).map lowerCP = s.map lowerCP := by
  induction s with
  | nil => rfl
  | cons c t ih => simp [List.map_cons, lowerCP_idem, ih]

/-! ### Trimming and colon-splitting lemmas -/

theorem dropWhile_noWs (s : Str) (h : ∀ c ∈ s, isWs c = false) :
    s.dropWhile (fun c => isWs c) = s := by
  cases s with
  | nil => rfl
  | cons a t => simp [List.dropWhile_cons, h a (List.mem_cons_self a t)]

theorem trimList_eq_self {s : Str} (h : ∀ c ∈ s, isWs c = false) :
    trimList s = s := by
  unfold trimList
  rw [dropWhile_noWs s h,
    dropWhile_noWs _ (fun c hc => h c (List.mem_reverse.mp hc)),
    List.reverse_reverse]

theorem splitColon_append {a c : Str} (h : (0x3A : Nat) ∉ a) :
    splitColon (a ++ 0x3A :: c) = some (a, c) := by
  induction a with
  | nil => simp [splitColon]
  | cons x t ih =>
    have hx : ¬ x = 0x3A := fun e => h (e ▸ List.mem_cons_self x t)
    have ih2 := ih (fun hm => h (List.mem_cons_of_mem x hm))
    show splitColon (x :: (t ++ 0x3A :: c)) = some (x :: t, c)
    unfold splitColon
    rw [if_neg hx, ih2]

theorem splitColon_eq_some {s a b : Str} (h : splitColon s = some (a, b)) :
    s = a ++ 0x3A :: b ∧ (0x3A : Nat) ∉ a := by
  induction s generalizing a b with
  | nil => simp [splitColon] at h
  | cons x t ih =>
    simp only [splitColon] at h
    by_cases hx : x = 0x3A
    · rw [if_pos hx] at h
      rcases h with ⟨rfl, rfl⟩
      exact ⟨by rw [hx]; rfl, by simp⟩
    · rw [if_neg hx] at h
      rcases he : splitColon t with _ | ⟨a2, b2⟩
      · rw [he] at h; simp at h
      · rw [he] at h
        rcases h with ⟨rfl, rfl⟩
        obtain ⟨ih1, ih2⟩ := ih he
        refine ⟨by rw [List.cons_append, ih1], fun hm => ?_⟩
        rcases List.mem_cons.mp hm with hm | hm
        · exact hx hm.symm
        · exact ih2 hm

/-! ### Parser characterization -/

/-- What a successful parse tells us about the input string. -/
theorem parseUri_some {s : Str} {u : Uri} (h : parseUri s = some u) :
    s.all isUriChar = true ∧
    ((u.scheme = none ∧ s = u.rest) ∨
     (∃ sch0, u.scheme = some (sch0.map lowerCP) ∧ schemeOk sch0 = true ∧
       u.rest ≠ [] ∧ s = sch0 ++ 0x3A :: 0x2F :: 0x2F :: u.rest)) := by
  unfold parseUri at h
  split at h
  · simp at h
  · rename_i hcond
    have hall : s.all isUriChar = true := by
      simp only [Bool.or_eq_true, decide_eq_true_eq, Bool.not_eq_eq_eq_not,
        Bool.not_true] at hcond
      rcases Bool.eq_false_or_eq_true (s.all isUriChar) with ht | hf
      · exact ht
      · exact absurd (Or.inr hf) hcond
    refine ⟨hall, ?_⟩
    split at h
    · rcases h with ⟨rfl⟩
      exact Or.inl ⟨rfl, rfl⟩
    · rename_i sch0 rem hsplit
      split at h
      · rename_i rest
        split at h
        · rename_i hok
          rcases h with ⟨rfl⟩
          simp only [Bool.and_eq_true, decide_eq_true_eq] at hok
          obtain ⟨hs1, _⟩ := splitColon_eq_some hsplit
          exact Or.inr ⟨sch0, rfl, hok.1, hok.2, hs1⟩
        · simp at h
      · simp at h

/-- Parsing the serialized form `scheme://rest` recovers the components
(with the scheme lower-cased). -/
theorem parseUri_build {sch0 rest : Str} (hok : schemeOk sch0 = true)
    (hrest : rest ≠ [])
    (hall : (sch0 ++ 0x3A :: 0x2F :: 0x2F :: rest).all isUriChar = true) :
    parseUri (sch0 ++ 0x3A :: 0x2F :: 0x2F :: rest) =
      some ⟨some (sch0.map lowerCP), rest⟩ := by
  have hnc : (0x3A : Nat) ∉ sch0 := by
    intro hm
    have := List.all_eq_true.mp (schemeOk_all hok) _ hm
    simp [isSchemeChar, isAlpha, isDigit] at this
  have hsplit := splitColon_append (a := sch0) (c := 0x2F :: 0x2F :: rest) hnc
  have hne : sch0 ++ 0x3A :: 0x2F :: 0x2F :: rest ≠ [] := by simp
  unfold parseUri
  rw [if_neg (by simp [hall, hne])]
  simp only [hsplit]
  rw [if_pos (by simp [hok, hrest])]

/-! ### Claim C8 -/

/-- Claim C8: normalization is idempotent — whenever the validator accepts a
string and produces the canonical string `c`, feeding `c` back through the
validator accepts it and produces `c` itself. -/
theorem normalize_idempotent (s c : Str) (h : normalizeStr s = .ok c) :
    normalizeStr c = .ok c := by
  unfold normalizeStr at h
  rcases hp : parseUri (trimList s) with _ | u
  · simp [hp] at h
  · simp only [hp] at h
    rcases hsch : u.scheme with _ | sch
    · simp [hsch] at h
    · simp only [hsch] at h
      by_cases hmem : sch ∈ allowedSchemes
      · rw [if_pos hmem] at h
        rcases h with ⟨rfl⟩
        obtain ⟨hall, hcase⟩ := parseUri_some hp
        rcases hcase with ⟨hnone, _⟩ | ⟨sch0, hval, hok, hrest, hs1⟩
        · rw [hsch] at hnone; exact absurd hnone (by simp)
        · rw [hsch] at hval
          rcases hval with ⟨rfl⟩
          -- the canonical string
          have hcanon : uriToString u = sch0.map lowerCP ++ 0x3A :: 0x2F :: 0x2F :: u.rest := by
            simp [uriToString, hsch]
          rw [hs1] at hall
          have hsch0_all : ∀ x ∈ sch0, isUriChar x = true := by
            intro x hx
            exact List.all_eq_true.mp hall x (List.mem_append_left _ hx)
          have hrest_all : ∀ x ∈ u.rest, isUriChar x = true := by
            intro x hx
            refine List.all_eq_true.mp hall x (List.mem_append_right _ ?_)
            exact List.mem_cons_of_mem _ (List.mem_cons_of_mem _ (List.mem_cons_of_mem _ hx))
          have hall2 : (sch0.map lowerCP ++ 0x3A :: 0x2F :: 0x2F :: u.rest).all
              isUriChar = true := by
            rw [List.all_eq_true]
            intro x hx
            rcases List.mem_append.mp hx with hx | hx
            · obtain ⟨y, hy, rfl⟩ := List.mem_map.mp hx
              exact isUriChar_lowerCP (hsch0_all y hy)
            · rcases List.mem_cons.mp hx with rfl | hx
              · rfl
              · rcases List.mem_cons.mp hx with rfl | hx
                · rfl
                · rcases List.mem_cons.mp hx with rfl | hx
                  · rfl
                  · exact hrest_all x hx
          have htrim : trimList (sch0.map lowerCP ++ 0x3A :: 0x2F :: 0x2F :: u.rest) =
              sch0.map lowerCP ++ 0x3A :: 0x2F :: 0x2F :: u.rest :=
            trimList_eq_self (fun x hx =>
              isUriChar_not_ws (List.all_eq_true.mp hall2 x hx))
          have hparse2 : parseUri (sch0.map lowerCP ++ 0x3A :: 0x2F :: 0x2F :: u.rest) =
              some ⟨some (sch0.map lowerCP), u.rest⟩ := by
            have := parseUri_build (schemeOk_map_lower hok) hrest hall2
            rw [this, map_lower_idem]
          unfold normalizeStr
          rw [hcanon, htrim]
          simp only [hparse2]
          rw [if_pos hmem]
          simp [uriToString]
      · rw [if_neg hmem] at h
        exact absurd h (by simp)

/-- Claim C8 witness: a mixed-case, whitespace-padded URL normalizes to its
canonical string, and the canonical string is a fixed point. -/
theorem normalize_idempotent_witness :
    normalizeStr (codes "HTTP://Example.com/Page") = .ok (codes "http://Example.com/Page") ∧
    normalizeStr (codes "http://Example.com/Page") = .ok (codes "http://Example.com/Page") :=
  ⟨by decide,
   normalize_idempotent (codes "HTTP://Example.com/Page") (codes "http://Example.com/Page")
     (by decide)⟩

/-! ### Claims C1 and C2 -/

/-- A fresh insert holds exactly one entry for its key. -/
theorem countP_key_tinsert (t : Table) (k v : Str) :
    (tinsert t k v).countP (fun p => p.1 = k) = 1 := by
  simp only [tinsert, List.countP_cons]
  have h0 : (t.filter (fun p => p.1 ≠ k)).countP (fun p => p.1 = k) = 0 := by
    rw [List.countP_eq_zero]
    intro p hp
    have hne := List.of_mem_filter hp
    simp only [decide_eq_true_eq] at hne ⊢
    exact hne
  simp [h0]

/-- Claim C1: submitting the same canonical URL u twice through the write
transaction `putOrReuse` (fault-free) returns the same code both times; the
second call leaves the store exactly as the first left it, and afterwards
the store holds exactly one link for u: u maps to the code, the code maps
back to u, URL→code has exactly one entry keyed u and code→URL exactly one
entry valued u.  The starting store may be any store satisfying the
bidirectionality invariant with duplicate-free tables (as every reachable
store does). -/
theorem putOrReuse_idempotent (st : Store) (u : Str) (keys1 keys2 : Nat → Str)
    (fuel1 fuel2 : Nat) (r1 r2 : HttpResp) (st1 st2 : Store)
    (hinv : inverses st) (hnc : nodupKeys st.c2u) (hnu : nodupKeys st.u2c)
    (h1 : putOrReuse st u keys1 noWriteFaults fuel1 = some (r1, st1))
    (h2 : putOrReuse st1 u keys2 noWriteFaults fuel2 = some (r2, st2)) :
    ∃ c, respCode r1 = some c ∧ respCode r2 = some c ∧ st2 = st1 ∧
      tget st1.u2c u = some c ∧ tget st1.c2u c = some u ∧
      st1.u2c.countP (fun p => p.1 = u) = 1 ∧
      st1.c2u.countP (fun p => p.2 = u) = 1 := by
  rcases putOrReuse_noFaults_spec h1 with ⟨c, hc, rfl, rfl⟩ |
    ⟨i, hnone, hfree, rfl, rfl⟩
  · -- first call reused an existing code c
    have hcu := (hinv c u).mpr hc
    refine ⟨c, rfl, ?_, ?_, hc, hcu, countP_key_one hnu hc, ?_⟩
    · rcases putOrReuse_noFaults_spec h2 with ⟨c2, hc2, rfl, rfl⟩ |
        ⟨j, hnone2, _, rfl, rfl⟩
      · rw [hc] at hc2
        injection hc2 with hc2
        rw [hc2]
        rfl
      · rw [hc] at hnone2
        exact absurd hnone2 (by simp)
    · rcases putOrReuse_noFaults_spec h2 with ⟨c2, hc2, rfl, rfl⟩ |
        ⟨j, hnone2, _, rfl, rfl⟩
      · rfl
      · rw [hc] at hnone2
        exact absurd hnone2 (by simp)
    · refine countP_val_one hnc hcu (fun p hp e => ?_)
      have ht := mem_tget hnc (k := p.1) (v := p.2) hp
      rw [e] at ht
      have h3 := (hinv p.1 u).mp ht
      rw [hc] at h3
      injection h3 with h3
      exact h3.symm
  · -- first call inserted the fresh code keys1 i
    have hself : tget (tinsert st.u2c u (keys1 i)) u = some (keys1 i) :=
      tget_tinsert_self _ _ _
    refine ⟨keys1 i, rfl, ?_, ?_, hself, tget_tinsert_self _ _ _,
      countP_key_tinsert _ _ _, ?_⟩
    · rcases putOrReuse_noFaults_spec h2 with ⟨c2, hc2, rfl, rfl⟩ |
        ⟨j, hnone2, _, rfl, rfl⟩
      · rw [hself] at hc2
        injection hc2 with hc2
        rw [hc2]
        rfl
      · rw [hself] at hnone2
        exact absurd hnone2 (by simp)
    · rcases putOrReuse_noFaults_spec h2 with ⟨c2, hc2, rfl, rfl⟩ |
        ⟨j, hnone2, _, rfl, rfl⟩
      · rfl
      · rw [hself] at hnone2
        exact absurd hnone2 (by simp)
    · simp only [tinsert, List.countP_cons]
      have h0 : (st.c2u.filter (fun p => p.1 ≠ keys1 i)).countP
          (fun p => p.2 = u) = 0 := by
        rw [List.countP_eq_zero]
        intro p hp
        simp only [decide_eq_true_eq]
        intro e
        have hpmem := List.mem_of_mem_filter hp
        have ht := mem_tget hnc (k := p.1) (v := p.2) hpmem
        rw [e] at ht
        have h3 := (hinv p.1 u).mp ht
        rw [hnone] at h3
        exact absurd h3 (by simp)
      rw [h0]
      simp

/-- Claim C1 witness: two submissions of `http://a` against the fresh store
return the code of the first (a 201 then a 200), and the store holds
exactly one link for it. -/
theorem putOrReuse_idempotent_witness :
    ∃ c, respCode (.json 201 true (codes "AAAAAA")) = some c ∧
      respCode (.json 200 true (codes "AAAAAA")) = some c ∧
      (⟨[(codes "AAAAAA", codes "http://a")], [(codes "http://a", codes "AAAAAA")]⟩ : Store) =
        ⟨[(codes "AAAAAA", codes "http://a")], [(codes "http://a", codes "AAAAAA")]⟩ ∧
      tget [(codes "http://a", codes "AAAAAA")] (codes "http://a") = some c ∧
      tget [(codes "AAAAAA", codes "http://a")] c = some (codes "http://a") ∧
      List.countP (fun p => p.1 = codes "http://a") [(codes "http://a", codes "AAAAAA")] = 1 ∧
      List.countP (fun p => p.2 = codes "http://a") [(codes "AAAAAA", codes "http://a")] = 1 :=
  putOrReuse_idempotent emptyStore (codes "http://a") (fun _ => codes "AAAAAA")
    (fun _ => codes "AAAAAA") 1 1 (.json 201 true (codes "AAAAAA"))
    (.json 200 true (codes "AAAAAA"))
    ⟨[(codes "AAAAAA", codes "http://a")], [(codes "http://a", codes "AAAAAA")]⟩
    ⟨[(codes "AAAAAA", codes "http://a")], [(codes "http://a", codes "AAAAAA")]⟩
    (fun c u => by simp [emptyStore, tget])
    (by unfold nodupKeys; decide) (by unfold nodupKeys; decide)
    (by decide) (by decide)

/-- Claim C2 counterexample: the claim says the idempotent-reuse case
returns the same 201 status.  It does not: resubmitting an already-stored
URL is answered with status 200 (the handler returns the bare JSON response
without a status code, src/cc.rs line 216), and 200 ≠ 201. -/
theorem put_reuse_status_counterexample :
    put_new ⟨[(codes "abc123", codes "http://a")], [(codes "http://a", codes "abc123")]⟩
        (codes "http://a") (fun _ => codes "AAAAAA") noWriteFaults 1 =
      some (.json 200 true (codes "abc123"),
        ⟨[(codes "abc123", codes "http://a")], [(codes "http://a", codes "abc123")]⟩) ∧
    (200 : Nat) ≠ 201 :=
  ⟨by decide, by decide⟩

/-- Claim C2 (amended): POST /put with a valid URL answers 201 Created with
JSON body {ok: true, msg: code} when the URL is new; when the
URL was already known, the response has the same JSON body shape
{ok: true, msg: existing code} with the correct code, but status 200
rather than 201. -/
theorem put_success_statuses (st : Store) (body : List Nat) (keys : Nat → Str)
    (fuel : Nat) (canon : Str) (hnorm : normalize body = .ok canon) :
    (∀ c, tget st.u2c canon = some c →
      put_new st body keys noWriteFaults fuel = some (.json 200 true c, st)) ∧
    (∀ r st1, tget st.u2c canon = none →
      put_new st body keys noWriteFaults fuel = some (r, st1) →
      ∃ c, r = .json 201 true c ∧ tget st1.u2c canon = some c) := by
  constructor
  · intro c hc
    unfold put_new
    rw [hnorm]
    unfold putOrReuse
    simp [noWriteFaults, hc]
  · intro r st1 hc h
    unfold put_new at h
    simp only [hnorm] at h
    rcases putOrReuse_noFaults_spec h with ⟨c2, hc2, _, _⟩ |
      ⟨i, _, _, rfl, rfl⟩
    · rw [hc] at hc2
      exact absurd hc2 (by simp)
    · exact ⟨keys i, rfl, tget_tinsert_self _ _ _⟩

/-- Claim C2 (amended) witness: a fresh URL gets 201 with its code; the
same URL already stored gets 200 with the stored code. -/
theorem put_success_statuses_witness :
    put_new ⟨[(codes "abc123", codes "http://b")], [(codes "http://b", codes "abc123")]⟩
        (codes "http://b") (fun _ => codes "AAAAAA") noWriteFaults 1 =
      some (.json 200 true (codes "abc123"),
        ⟨[(codes "abc123", codes "http://b")], [(codes "http://b", codes "abc123")]⟩) ∧
    ∃ c, HttpResp.json 201 true (codes "AAAAAA") = .json 201 true c ∧
      tget [(codes "http://b", codes "AAAAAA")] (codes "http://b") = some c :=
  ⟨(put_success_statuses _ (codes "http://b") (fun _ => codes "AAAAAA") 1
      (codes "http://b") (by decide)).1 (codes "abc123") (by decide),
   (put_success_statuses emptyStore (codes "http://b") (fun _ => codes "AAAAAA") 1
      (codes "http://b") (by decide)).2 (.json 201 true (codes "AAAAAA"))
      ⟨[(codes "AAAAAA", codes "http://b")], [(codes "http://b", codes "AAAAAA")]⟩
      (by decide) (by decide)⟩

end CC
